import Mathlib

/-!
Verification of the chunk-splitting / dependency-graph optimizer described by
the repository's specification, together with the concrete module-import
structure of the repository's `src/components/App.js`.

The repository itself ships only bundler configuration and trivial UI
components; the Chunk Assignment Engine and Module Graph Builder it configures
are not present under `src/`.  Those parts are therefore modelled from the
specification text (each such definition says so in its doc comment), while
the import structure of `App.js` is embedded directly from the source file.
-/

namespace Bundler

/-- Kind of a dependency edge: `sync` for a static import resolved at initial
load, `async` for a dynamic `import()` boundary. -/
inductive EdgeKind where
  | sync
  | async
deriving Repr, DecidableEq

/-- A module: unique identifier (resolved path) and size in bytes.
Modelled from the spec: Data model, "Module". -/
structure Module where
  id : String
  size : Nat
deriving Repr, DecidableEq

/-- A dependency edge `(source, target, kind)`.
Modelled from the spec: Data model, "Edge". -/
structure Edge where
  source : String
  target : String
  kind : EdgeKind
deriving Repr, DecidableEq

/-- A built module graph: modules, edges, and the ordered entry identifiers.
Modelled from the spec: Module Graph Builder output. -/
structure ModuleGraph where
  modules : List Module
  edges : List Edge
  entries : List String
deriving Repr, DecidableEq

/-- Which chunks a cache group may apply to.
Modelled from the spec: CacheGroup `chunkScope ∈ \x7ball, async, initial\x7d`. -/
inductive ChunkScope where
  | all
  | asyncOnly
  | initialOnly
deriving Repr, DecidableEq

/-- A cache group: name, membership predicate over modules, priority (higher
wins), minChunks, scope, and the `reuseExistingChunk` flag.
Modelled from the spec: Data model, "CacheGroup". -/
structure CacheGroup where
  name : String
  test : Module → Bool
  priority : Int
  minChunks : Nat
  chunkScope : ChunkScope
  reuseExistingChunk : Bool

/-- Global thresholds handed to the planning call.
Modelled from the spec: `minSize`, `minRemainingSize`, `minChunks`,
`maxAsyncRequests`, `maxInitialRequests`, `enforceSizeThreshold`. -/
structure Thresholds where
  minSize : Nat
  minRemainingSize : Nat
  minChunks : Nat
  maxAsyncRequests : Nat
  maxInitialRequests : Nat
  enforceSizeThreshold : Nat
deriving Repr, DecidableEq

/-- Full configuration of a planning call: cache groups plus thresholds. -/
structure Config where
  groups : List CacheGroup
  thresholds : Thresholds

/-! ### Cache-group selection (spec §4.2 step 2) -/

/-- The cache groups whose membership predicate matches a module, in
declaration order.  Modelled from the spec: "for every module, compute the
set of CacheGroups whose membership predicate matches it". -/
def matchingGroups (gs : List CacheGroup) (m : Module) : List CacheGroup :=
  gs.filter (fun g => g.test m)

/-- Keep the earlier group unless the later one has strictly higher priority.
Modelled from the spec: "select the one with highest priority; on tie, the
first declared". -/
def betterGroup (a b : CacheGroup) : CacheGroup :=
  if a.priority < b.priority then b else a

/-- Select the winning cache group for a module: among the matching groups the
one with highest priority, ties broken by declaration order; `none` when no
group matches.  Modelled from the spec: §4.2 step 2 "Group selection". -/
def selectGroup (gs : List CacheGroup) (m : Module) : Option CacheGroup :=
  match matchingGroups gs m with
  | [] => none
  | g :: rest => some (rest.foldl betterGroup g)

/-! ### A computable total order on module identifiers

Chunk identifiers are, per the spec, "derived deterministically from sorted
member-module identifiers".  We order identifiers lexicographically over their
character codes. -/

/-- Two characters are equal when their code points agree. -/
lemma char_eq_of_toNat_eq {a b : Char} (h : a.toNat = b.toNat) : a = b := by
  apply Char.eq_of_val_eq
  apply UInt32.eq_of_toBitVec_eq
  apply BitVec.eq_of_toNat_eq
  exact h

/-- Lexicographic order on character lists, comparing Unicode code points. -/
def strLe : List Char → List Char → Bool
  | [], _ => true
  | _ :: _, [] => false
  | a :: as, b :: bs =>
      if a.toNat < b.toNat then true
      else if b.toNat < a.toNat then false
      else strLe as bs

/-- `strLe` is total. -/
lemma strLe_total : ∀ as bs : List Char, strLe as bs = true ∨ strLe bs as = true := by
  intro as
  induction as with
  | nil => intro bs; left; rfl
  | cons a as ih =>
    intro bs
    cases bs with
    | nil => right; rfl
    | cons b bs =>
      rcases Nat.lt_trichotomy a.toNat b.toNat with h | h | h
      · left
        simp [strLe, h]
      · rcases ih bs with h' | h'
        · left; simp [strLe, h, h']
        · right; simp [strLe, h, h']
      · right
        simp [strLe, h, Nat.lt_asymm h]

/-- `strLe` is transitive. -/
lemma strLe_trans :
    ∀ as bs cs : List Char,
      strLe as bs = true → strLe bs cs = true → strLe as cs = true := by
  intro as
  induction as with
  | nil => intro bs cs _ _; rfl
  | cons a as ih =>
    intro bs cs h1 h2
    cases bs with
    | nil => simp [strLe] at h1
    | cons b bs =>
      cases cs with
      | nil => simp [strLe] at h2
      | cons c cs =>
        simp only [strLe] at h1 h2 ⊢
        by_cases hab : a.toNat < b.toNat
        · by_cases hbc : b.toNat < c.toNat
          · have hac : a.toNat < c.toNat := Nat.lt_trans hab hbc
            simp [hac]
          · by_cases hcb : c.toNat < b.toNat
            · simp [hbc, hcb] at h2
            · have hcb' : b.toNat ≤ c.toNat := Nat.not_lt.mp hcb
              have hac : a.toNat < c.toNat := Nat.lt_of_lt_of_le hab hcb'
              simp [hac]
        · by_cases hba : b.toNat < a.toNat
          · simp [hab, hba] at h1
          · simp [hab, hba] at h1
            have hba' : a.toNat ≤ b.toNat := Nat.not_lt.mp hba
            by_cases hbc : b.toNat < c.toNat
            · have hac : a.toNat < c.toNat := Nat.lt_of_le_of_lt hba' hbc
              simp [hac]
            · by_cases hcb : c.toNat < b.toNat
              · simp [hbc, hcb] at h2
              · simp [hbc, hcb] at h2
                have hcb' : b.toNat ≤ c.toNat := Nat.not_lt.mp hcb
                have hac : a.toNat ≤ c.toNat := Nat.le_trans hba' hcb'
                have hca : ¬ c.toNat < a.toNat := Nat.not_lt.mpr hac
                by_cases hac' : a.toNat < c.toNat
                · simp [hac']
                · simp [hac', hca, ih bs cs h1 h2]

/-- `strLe` is antisymmetric. -/
lemma strLe_antisymm :
    ∀ as bs : List Char, strLe as bs = true → strLe bs as = true → as = bs := by
  intro as
  induction as with
  | nil =>
    intro bs _ h2
    cases bs with
    | nil => rfl
    | cons b bs => simp [strLe] at h2
  | cons a as ih =>
    intro bs h1 h2
    cases bs with
    | nil => simp [strLe] at h1
    | cons b bs =>
      simp only [strLe] at h1 h2
      by_cases hab : a.toNat < b.toNat
      · simp [hab, Nat.lt_asymm hab] at h2
      · by_cases hba : b.toNat < a.toNat
        · simp [hab, hba] at h1
        · have hv : a.toNat = b.toNat :=
            Nat.le_antisymm (Nat.not_lt.mp hba) (Nat.not_lt.mp hab)
          simp [hab, hba] at h1 h2
          rw [char_eq_of_toNat_eq hv, ih bs h1 h2]

/-- Order on module identifiers: lexicographic over the character data. -/
def IdLe (a b : String) : Prop := strLe a.data b.data = true

instance : DecidableRel IdLe := fun a b =>
  inferInstanceAs (Decidable (strLe a.data b.data = true))

instance : IsTotal String IdLe := ⟨fun a b => strLe_total a.data b.data⟩

instance : IsTrans String IdLe := ⟨fun a b c => strLe_trans a.data b.data c.data⟩

instance : IsAntisymm String IdLe :=
  ⟨fun a b h1 h2 => by
    cases a with
    | mk da =>
      cases b with
      | mk db => exact congrArg String.mk (strLe_antisymm da db h1 h2)⟩

/-- Canonically sort a list of module identifiers. -/
def sortIds (l : List String) : List String := List.insertionSort IdLe l

lemma sortIds_perm (l : List String) : (sortIds l).Perm l :=
  List.perm_insertionSort IdLe l

lemma sortIds_sorted (l : List String) : List.Sorted IdLe (sortIds l) :=
  List.sorted_insertionSort IdLe l

/-- Sorting is invariant under permutation of the input. -/
lemma sortIds_eq_of_perm {l₁ l₂ : List String} (h : l₁.Perm l₂) :
    sortIds l₁ = sortIds l₂ :=
  List.eq_of_perm_of_sorted
    (((sortIds_perm l₁).trans h).trans (sortIds_perm l₂).symm)
    (sortIds_sorted l₁) (sortIds_sorted l₂)

/-- Chunk identifier: a content fingerprint derived deterministically from the
sorted member-module identifiers, independent of allocation order.
Modelled from the spec: §4.2 step 7 "Determinism". -/
def chunkId (members : List String) : String :=
  String.intercalate "+" (sortIds members)

/-- The fingerprint only depends on the member set, not on the order in which
members were accumulated. -/
lemma chunkId_eq_of_perm {l₁ l₂ : List String} (h : l₁.Perm l₂) :
    chunkId l₁ = chunkId l₂ := by
  unfold chunkId
  rw [sortIds_eq_of_perm h]

/-! ### Reachability over the module graph -/

/-- Append an element unless already present (keeps first-seen order). -/
def pushNew {α : Type} [DecidableEq α] (acc : List α) (w : α) : List α :=
  if w ∈ acc then acc else acc ++ [w]

/-- One closure round: add every successor of every already-seen identifier. -/
def expandWith (succ : String → List String) (seen : List String) : List String :=
  seen.foldl (fun acc v => (succ v).foldl pushNew acc) seen

/-- Iterate a function `n` times. -/
def iterateN {α : Type} (f : α → α) : Nat → α → α
  | 0, a => a
  | n + 1, a => iterateN f n (f a)

/-- Targets of the synchronous edges leaving `v`. -/
def syncSuccessors (edges : List Edge) (v : String) : List String :=
  (edges.filter (fun e => e.source == v && e.kind == EdgeKind.sync)).map Edge.target

/-- Identifiers synchronously reachable from `start` (closure bounded by the
module count).  Modelled from the spec: synchronous reachability from an
entry or async-split point. -/
def syncReach (g : ModuleGraph) (start : String) : List String :=
  iterateN (expandWith (syncSuccessors g.edges)) g.modules.length [start]

/-- The entry points and async-split points of the graph, in declaration
order, deduplicated.  Modelled from the spec: "distinct entry/async-split
points". -/
def splitPoints (g : ModuleGraph) : List String :=
  ((g.edges.filter (fun e => e.kind == EdgeKind.async)).map Edge.target).foldl
    pushNew (g.entries.foldl pushNew [])

/-- The split points from which a module is synchronously reachable. -/
def reachingPoints (g : ModuleGraph) (m : Module) : List String :=
  (splitPoints g).filter (fun p => (syncReach g p).contains m.id)

/-- A module identifier is initial when it is synchronously reachable from
some entry.  Modelled from the spec: "a module reachable ... synchronously
from the initial entry ... must be placed in an initial chunk (synchronous
reachability dominates)". -/
def isInitial (g : ModuleGraph) (i : String) : Bool :=
  g.entries.any (fun e => (syncReach g e).contains i)

/-- Kind of an output chunk. -/
inductive ChunkKind where
  | initial
  | async
deriving Repr, DecidableEq

/-- A chunk is initial as soon as one of its members is needed at initial
load; otherwise it is an async chunk. -/
def chunkKind (g : ModuleGraph) (members : List String) : ChunkKind :=
  if members.any (isInitial g) then ChunkKind.initial else ChunkKind.async

/-! ### Candidate generation and group selection (spec §4.2 steps 1–3) -/

/-- Identity of the target chunk of a module: a winning cache group together
with the entry-point combination reaching the module, the implicit default
group `common`, or inlining into the sole consuming chunk.
Modelled from the spec: §4.2 step 2, "a chunk key derived from group name +
entry-point combination reaching it", and step 1 for the `common` /
inlined fallback. -/
inductive ChunkKey where
  | group (name : String) (combo : List String)
  | common (combo : List String)
  | inlined (consumer : String)
deriving Repr, DecidableEq

/-- The chunk key a module is assigned to.  Modelled from the spec: §4.2
steps 1–2 — winning cache group when one matches; otherwise the implicit
default group `common` when the module is reachable from at least
`minChunks` distinct entry/async-split points; otherwise the module stays
inlined in its sole consuming chunk. -/
def assignKey (cfg : Config) (g : ModuleGraph) (m : Module) : ChunkKey :=
  match selectGroup cfg.groups m with
  | some grp => ChunkKey.group grp.name (sortIds (reachingPoints g m))
  | none =>
      if cfg.thresholds.minChunks ≤ (reachingPoints g m).length then
        ChunkKey.common (sortIds (reachingPoints g m))
      else ChunkKey.inlined ((reachingPoints g m).headD m.id)

/-- A candidate chunk during planning: its key, ordered member identifiers,
total byte size, and the priority of the rule that produced it. -/
structure CChunk where
  key : ChunkKey
  members : List String
  size : Nat
  priority : Int
deriving Repr, DecidableEq

/-- Priority of a chunk key: the winning group's priority, `-20` for the
implicit default group (mirroring the repository's `default` cache group
named `common`), `0` for an inlined consumer chunk. -/
def keyPriority (cfg : Config) : ChunkKey → Int
  | ChunkKey.group n _ =>
      ((cfg.groups.find? (fun gr => gr.name == n)).map CacheGroup.priority).getD 0
  | ChunkKey.common _ => -20
  | ChunkKey.inlined _ => 0

/-- The distinct chunk keys of the graph's modules, in first-module order. -/
def chunkKeysOf (cfg : Config) (g : ModuleGraph) : List ChunkKey :=
  g.modules.foldl (fun acc m => pushNew acc (assignKey cfg g m)) []

/-- The member identifiers of the chunk with key `k`. -/
def membersOf (cfg : Config) (g : ModuleGraph) (k : ChunkKey) : List String :=
  (g.modules.filter (fun m => assignKey cfg g m == k)).map Module.id

/-- Total byte size of the chunk with key `k` (sum of member sizes).
Modelled from the spec: "A Chunk's size is the sum of its member modules'
sizes". -/
def membersSize (cfg : Config) (g : ModuleGraph) (k : ChunkKey) : Nat :=
  ((g.modules.filter (fun m => assignKey cfg g m == k)).map Module.size).sum

/-- Chunk materialization: modules sharing the same target chunk key are
merged into one chunk.  Modelled from the spec: §4.2 step 3. -/
def materialize (cfg : Config) (g : ModuleGraph) : List CChunk :=
  (chunkKeysOf cfg g).map (fun k =>
    { key := k, members := membersOf cfg g k, size := membersSize cfg g k,
      priority := keyPriority cfg k })

/-! ### Merging chunks -/

/-- Add the members (and size) of `v` to the chunk with key `tgtKey`. -/
def mergeInto (cs : List CChunk) (tgtKey : ChunkKey) (v : CChunk) : List CChunk :=
  cs.map (fun t =>
    if t.key == tgtKey then
      { t with members := t.members ++ v.members, size := t.size + v.size }
    else t)

/-- Remove chunk `v` and merge its members into the chunk with key `tgtKey`. -/
def removeAndMerge (cs : List CChunk) (v : CChunk) (tgtKey : ChunkKey) : List CChunk :=
  mergeInto (cs.erase v) tgtKey v

/-- The chunk keys of a chunk list, in order. -/
def keysOf (cs : List CChunk) : List ChunkKey :=
  cs.map CChunk.key

/-- How many chunks of the list contain the module identifier `i`. -/
def nChunksWith (i : String) (cs : List CChunk) : Nat :=
  cs.countP (fun c => decide (i ∈ c.members))

/-! ### Size filtering (spec §4.2 step 4) -/

/-- Only cache-group and `common` chunks are size-filter candidates; inlined
consumer chunks are the consumers they merge back into. -/
def isCandidateKey : ChunkKey → Bool
  | ChunkKey.inlined _ => false
  | _ => true

/-- Does chunk `t` consume from chunk `c`, i.e. does some edge lead from a
member of `t` to a member of `c`? -/
def consumesFrom (g : ModuleGraph) (t c : CChunk) : Bool :=
  g.edges.any (fun e => t.members.contains e.source && c.members.contains e.target)

/-- The consumer a dropped candidate merges back into: the first other chunk
with an edge into it. -/
def consumerOf (g : ModuleGraph) (rest : List CChunk) (c : CChunk) : Option CChunk :=
  rest.find? (fun t => consumesFrom g t c)

/-- One size-filtering decision.  Modelled from the spec: §4.2 step 4 —
"drop (merge back into consumer) any candidate chunk whose size < minSize,
unless its size ≥ enforceSizeThreshold, in which case splitting is forced". -/
def sizeFilterStep (t : Thresholds) (g : ModuleGraph) (cs : List CChunk)
    (k : ChunkKey) : List CChunk :=
  match cs.find? (fun c => c.key == k) with
  | none => cs
  | some c =>
      if t.minSize ≤ c.size then cs
      else if t.enforceSizeThreshold ≤ c.size then cs
      else
        match consumerOf g (cs.erase c) c with
        | none => cs
        | some tgt => removeAndMerge cs c tgt.key

/-- The size-filtering pass over all candidate chunks. -/
def sizeFilter (t : Thresholds) (g : ModuleGraph) (cs : List CChunk) : List CChunk :=
  ((cs.filter (fun c => isCandidateKey c.key)).map CChunk.key).foldl
    (sizeFilterStep t g) cs

/-! ### Request-count capping (spec §4.2 step 5) -/

/-- Left-to-right minimum: keep `a` unless `b` is strictly better, so ties
prefer the earlier chunk. -/
def pickBest (better : CChunk → CChunk → Bool) : List CChunk → Option CChunk
  | [] => none
  | c :: rest => some (rest.foldl (fun a b => if better a b then b else a) c)

/-- Victim preference: strictly lower priority first, then strictly smaller
size.  Modelled from the spec: "merge the lowest-priority eligible chunks
..., preferring to merge smaller chunks first". -/
def victimBetter (a b : CChunk) : Bool :=
  b.priority < a.priority || (b.priority == a.priority && b.size < a.size)

/-- The chunk to merge away: lowest priority (ties: smaller, then earlier)
among chunks not backed by `enforceSizeThreshold`.  Modelled from the spec:
"a chunk backed by enforceSizeThreshold cannot be merged away". -/
def pickVictim (t : Thresholds) (cs : List CChunk) : Option CChunk :=
  pickBest victimBetter (cs.filter (fun c => c.size < t.enforceSizeThreshold))

/-- Target preference: lowest priority (ties: earlier). -/
def targetBetter (a b : CChunk) : Bool :=
  b.priority < a.priority

/-- The sibling a victim merges into: the next-highest-priority sibling —
lowest priority among siblings at or above the victim's priority, falling
back to the lowest-priority sibling. -/
def pickTarget (v : CChunk) (rest : List CChunk) : Option CChunk :=
  match pickBest targetBetter (rest.filter (fun d => v.priority ≤ d.priority)) with
  | some tgt => some tgt
  | none => pickBest targetBetter rest

/-- One capping merge, or `none` when no further merge is legal. -/
def capStep (t : Thresholds) (cs : List CChunk) : Option (List CChunk) :=
  match pickVictim t cs with
  | none => none
  | some v =>
      match pickTarget v (cs.erase v) with
      | none => none
      | some tgt => some (removeAndMerge cs v tgt.key)

/-- Fuelled capping loop: merge until the limit is met or no legal merge
remains.  Modelled from the spec: §4.2 step 5. -/
def capLoop (t : Thresholds) (limit : Nat) : Nat → List CChunk → List CChunk
  | 0, cs => cs
  | fuel + 1, cs =>
      if cs.length ≤ limit then cs
      else
        match capStep t cs with
        | none => cs
        | some cs2 => capLoop t limit fuel cs2

/-- Cap the number of chunks at `limit` (fuel: one merge removes one chunk,
so the input length bounds the number of merges). -/
def capRequests (t : Thresholds) (limit : Nat) (cs : List CChunk) : List CChunk :=
  capLoop t limit cs.length cs

/-! ### The planning call (spec §4.2, §6, §7) -/

/-- Is the chunk loaded eagerly (does it hold an initial module)? -/
def isInitialChunk (g : ModuleGraph) (c : CChunk) : Bool :=
  c.members.any (isInitial g)

/-- A chunk of the final plan: content-fingerprint identifier, members, size,
kind.  Modelled from the spec: Data model, "Chunk". -/
structure PlanChunk where
  id : String
  members : List String
  size : Nat
  kind : ChunkKind
deriving Repr, DecidableEq

/-- The final plan: chunks plus, for each entry/async-split point, the chunk
identifiers it loads.  Modelled from the spec: Data model, "PartitionPlan". -/
structure PartitionPlan where
  chunks : List PlanChunk
  loads : List (String × List String)
deriving Repr, DecidableEq

/-- Fatal planning error naming the conflicting threshold pair and the
triggering chunk.  Modelled from the spec: §7 error taxonomy. -/
structure UnsatisfiableConstraintError where
  thresholdA : String
  thresholdB : String
  chunk : String
deriving Repr, DecidableEq

/-- The eager chunks of the plan after size filtering and initial-request
capping. -/
def initialPlanChunks (cfg : Config) (g : ModuleGraph) : List CChunk :=
  capRequests cfg.thresholds cfg.thresholds.maxInitialRequests
    ((sizeFilter cfg.thresholds g (materialize cfg g)).filter (isInitialChunk g))

/-- The on-demand chunks of the plan after size filtering and async-request
capping. -/
def asyncPlanChunks (cfg : Config) (g : ModuleGraph) : List CChunk :=
  capRequests cfg.thresholds cfg.thresholds.maxAsyncRequests
    ((sizeFilter cfg.thresholds g (materialize cfg g)).filter
      (fun c => !(isInitialChunk g c)))

/-- All chunks of the final plan. -/
def planChunks (cfg : Config) (g : ModuleGraph) : List CChunk :=
  initialPlanChunks cfg g ++ asyncPlanChunks cfg g

/-- Finalize a chunk: its identifier is the content fingerprint of its
members. -/
def toPlanChunk (g : ModuleGraph) (c : CChunk) : PlanChunk :=
  { id := chunkId c.members, members := c.members, size := c.size,
    kind := chunkKind g c.members }

/-- Chunk identifiers a split point loads: those of the chunks holding a
module it reaches synchronously. -/
def loadsFor (g : ModuleGraph) (cs : List CChunk) (p : String) : List String :=
  (cs.filter (fun c => c.members.any (fun i => (syncReach g p).contains i))).map
    (fun c => chunkId c.members)

/-- Assemble the final plan from the surviving chunks. -/
def assemblePlan (g : ModuleGraph) (cs : List CChunk) : PartitionPlan :=
  { chunks := cs.map (toPlanChunk g),
    loads := (splitPoints g).map (fun p => (p, loadsFor g cs p)) }

/-- The chunk blamed in an unsatisfiable-constraint report: the first chunk
held above the enforcement threshold, else the first chunk. -/
def triggerChunk (t : Thresholds) (cs : List CChunk) : String :=
  match cs.find? (fun c => t.enforceSizeThreshold ≤ c.size) with
  | some c => chunkId c.members
  | none =>
      match cs with
      | [] => ""
      | c :: _ => chunkId c.members

/-- The planning entry point: returns a PartitionPlan satisfying all
constraints, or fails fast with `UnsatisfiableConstraintError` naming the
conflicting threshold pair — never a partial plan.  Modelled from the spec:
§4.2 failure mode and §7. -/
def planResult (cfg : Config) (g : ModuleGraph) :
    Except UnsatisfiableConstraintError PartitionPlan :=
  if cfg.thresholds.maxInitialRequests < (initialPlanChunks cfg g).length then
    Except.error
      { thresholdA := "enforceSizeThreshold", thresholdB := "maxInitialRequests",
        chunk := triggerChunk cfg.thresholds (initialPlanChunks cfg g) }
  else if cfg.thresholds.maxAsyncRequests < (asyncPlanChunks cfg g).length then
    Except.error
      { thresholdA := "enforceSizeThreshold", thresholdB := "maxAsyncRequests",
        chunk := triggerChunk cfg.thresholds (asyncPlanChunks cfg g) }
  else Except.ok (assemblePlan g (planChunks cfg g))

/-! ### Module Graph Builder (spec §4.1) -/

/-- What the external resolver returns for one identifier: module size and the
raw import list with edge kinds.  Modelled from the spec: §6,
`resolve(id) -> (size, dependencies: [(id, kind)])`. -/
structure ResolvedModule where
  size : Nat
  dependencies : List (String × EdgeKind)
deriving Repr, DecidableEq

/-- A resolver given as a finite table from identifiers to resolved modules. -/
abbrev Resolver := List (String × ResolvedModule)

/-- Resolve one identifier. -/
def rlookup (R : Resolver) (v : String) : Option ResolvedModule :=
  (R.find? (fun p => p.1 == v)).map Prod.snd

/-- All declared import targets of `v` (empty when unresolvable). -/
def depTargets (R : Resolver) (v : String) : List String :=
  match rlookup R v with
  | none => []
  | some rm => rm.dependencies.map Prod.fst

/-- The synchronous import targets of `v`. -/
def syncDepTargets (R : Resolver) (v : String) : List String :=
  match rlookup R v with
  | none => []
  | some rm => (rm.dependencies.filter (fun d => d.2 == EdgeKind.sync)).map Prod.fst

/-- The identifiers reachable from the entries through declared imports
(bounded closure).  Modelled from the spec: "a closed dependency graph
reachable from the entries". -/
def reachableIds (R : Resolver) (entries : List String) : List String :=
  iterateN (expandWith (depTargets R)) (R.length + entries.length)
    (entries.foldl pushNew [])

/-- Fatal graph-builder error naming the missing identifier and the importing
module.  Modelled from the spec: §7 error taxonomy. -/
structure UnresolvedModuleError where
  missing : String
  importer : String
deriving Repr, DecidableEq

/-- Non-fatal build warnings.  Modelled from the spec: `CyclicImportWarning`
(recoverable, logged, graph still built). -/
inductive BuildWarning where
  | cyclicImport
deriving Repr, DecidableEq

/-- The importing module blamed for a missing identifier: the first reachable
module that declares it (the identifier itself when it is a missing entry). -/
def importerOf (R : Resolver) (entries : List String) (v : String) : String :=
  ((reachableIds R entries).find? (fun u => (depTargets R u).contains v)).getD v

/-- Does some reachable module synchronously reach itself in one or more
steps?  Modelled from the spec: "a cycle is detected among synchronous
edges". -/
def hasSyncCycle (R : Resolver) (entries : List String) : Bool :=
  (reachableIds R entries).any (fun v =>
    (iterateN (expandWith (syncDepTargets R)) (R.length + entries.length)
      (syncDepTargets R v)).contains v)

/-- Every declared dependency edge of the given identifiers. -/
def declaredEdges (R : Resolver) (ids : List String) : List Edge :=
  ids.flatMap (fun v =>
    match rlookup R v with
    | none => []
    | some rm => rm.dependencies.map (fun d => Edge.mk v d.1 d.2))

/-- The Module Graph Builder: produces the closed dependency graph reachable
from the entries, failing with `UnresolvedModuleError` when an import target
cannot be resolved; a cycle among synchronous edges only adds a non-fatal
`cyclicImport` warning, the graph is still built.  Modelled from the spec:
§4.1. -/
def buildGraph (entries : List String) (R : Resolver) :
    Except UnresolvedModuleError (ModuleGraph × List BuildWarning) :=
  match (reachableIds R entries).find? (fun v => (rlookup R v).isNone) with
  | some v => Except.error { missing := v, importer := importerOf R entries v }
  | none =>
      Except.ok
        ({ modules := (reachableIds R entries).filterMap (fun v =>
              (rlookup R v).map (fun rm => { id := v, size := rm.size })),
           edges := declaredEdges R (reachableIds R entries),
           entries := entries },
         if hasSyncCycle R entries then [BuildWarning.cyclicImport] else [])

/-! ### Imports of the first `AppComponent` variant (src/src/components/App.js) -/

/-- One import declaration of a component: target specifier, edge kind, and
the `webpackChunkName` annotation when present. -/
structure ImportDecl where
  target : String
  kind : EdgeKind
  chunkName : Option String
deriving Repr, DecidableEq

/-- The import list of the first `AppComponent` variant in
`src/components/App.js`: five static imports, and `./Dynamic` loaded through
`React.lazy` over a dynamic `import()` annotated
`webpackChunkName: 'dynamic-component'`. -/
def appComponentImports : List ImportDecl :=
  [ { target := "react", kind := EdgeKind.sync, chunkName := none },
    { target := "./App.css", kind := EdgeKind.sync, chunkName := none },
    { target := "../../public/dog-img.jpg", kind := EdgeKind.sync, chunkName := none },
    { target := "../shared/Button", kind := EdgeKind.sync, chunkName := none },
    { target := "./Dashboard", kind := EdgeKind.sync, chunkName := none },
    { target := "./Dynamic", kind := EdgeKind.async,
      chunkName := some "dynamic-component" } ]

/-! ### Concrete fixtures used by the theorems -/

/-- Fixture: a cache group matching every module at priority `-10`. -/
def groupLow : CacheGroup :=
  { name := "low", test := fun _ => true, priority := -10, minChunks := 1,
    chunkScope := ChunkScope.all, reuseExistingChunk := false }

/-- Fixture: a cache group matching every module at priority `10`. -/
def groupHigh : CacheGroup :=
  { name := "high", test := fun _ => true, priority := 10, minChunks := 1,
    chunkScope := ChunkScope.all, reuseExistingChunk := false }

/-- Fixture: an arbitrary module. -/
def mFix : Module := { id := "src/a.js", size := 100 }

/-- Fixture: resolver with a synchronous import cycle between two modules. -/
def cyclicResolver : Resolver :=
  [ ("src/a.js", { size := 10, dependencies := [("src/b.js", EdgeKind.sync)] }),
    ("src/b.js", { size := 12, dependencies := [("src/a.js", EdgeKind.sync)] }) ]

/-- Fixture: the graph the builder produces from `cyclicResolver`. -/
def cyclicGraph : ModuleGraph :=
  { modules := [{ id := "src/a.js", size := 10 }, { id := "src/b.js", size := 12 }],
    edges := [{ source := "src/a.js", target := "src/b.js", kind := EdgeKind.sync },
              { source := "src/b.js", target := "src/a.js", kind := EdgeKind.sync }],
    entries := ["src/a.js"] }

/-! ### Helper lemmas on folds -/

/-- A fold that always keeps one of its two arguments lands on a list
element (or the seed). -/
lemma foldl_choice_mem {α : Type} (f : α → α → α)
    (hf : ∀ a b, f a b = a ∨ f a b = b) :
    ∀ (l : List α) (a : α), l.foldl f a ∈ a :: l := by
  intro l
  induction l with
  | nil => intro a; simp
  | cons b l ih =>
    intro a
    have h1 : (b :: l).foldl f a = l.foldl f (f a b) := rfl
    rw [h1]
    rcases List.mem_cons.mp (ih (f a b)) with h3 | h3
    · rcases hf a b with h4 | h4
      · rw [h3, h4]; exact List.mem_cons_self _ _
      · rw [h3, h4]; exact List.mem_cons_of_mem _ (List.mem_cons_self _ _)
    · exact List.mem_cons_of_mem _ (List.mem_cons_of_mem _ h3)

/-- `betterGroup` keeps one of its arguments. -/
lemma betterGroup_choice (a b : CacheGroup) :
    betterGroup a b = a ∨ betterGroup a b = b := by
  unfold betterGroup
  by_cases h : a.priority < b.priority
  · right; simp [h]
  · left; simp [h]

/-- Both arguments have priority at most that of `betterGroup`. -/
lemma betterGroup_ge (a b : CacheGroup) :
    a.priority ≤ (betterGroup a b).priority ∧
      b.priority ≤ (betterGroup a b).priority := by
  unfold betterGroup
  by_cases h : a.priority < b.priority
  · simp [h]
    exact le_of_lt h
  · simp [h]
    exact not_lt.mp h

/-- The fold over `betterGroup` dominates every candidate's priority. -/
lemma foldl_better_ge :
    ∀ (rest : List CacheGroup) (a : CacheGroup),
      ∀ x ∈ a :: rest, x.priority ≤ (rest.foldl betterGroup a).priority := by
  intro rest
  induction rest with
  | nil =>
    intro a x hx
    rcases List.mem_cons.mp hx with h | h
    · rw [h]; exact le_rfl
    · simp at h
  | cons b rest ih =>
    intro a x hx
    have hres : ((b :: rest).foldl betterGroup a) =
        rest.foldl betterGroup (betterGroup a b) := rfl
    rw [hres]
    rcases List.mem_cons.mp hx with h | h
    · calc x.priority = a.priority := by rw [h]
        _ ≤ (betterGroup a b).priority := (betterGroup_ge a b).1
        _ ≤ _ := ih (betterGroup a b) _ (List.mem_cons_self _ _)
    · rcases List.mem_cons.mp h with h' | h'
      · calc x.priority = b.priority := by rw [h']
          _ ≤ (betterGroup a b).priority := (betterGroup_ge a b).2
          _ ≤ _ := ih (betterGroup a b) _ (List.mem_cons_self _ _)
      · exact ih (betterGroup a b) x (List.mem_cons_of_mem _ h')

/-- The fold over `betterGroup` lands on the first candidate of maximal
priority: everything declared before it has strictly lower priority. -/
lemma foldl_better_first :
    ∀ (rest : List CacheGroup) (a : CacheGroup),
      ∃ l1 l2, a :: rest = l1 ++ (rest.foldl betterGroup a) :: l2 ∧
        ∀ x ∈ l1, x.priority < (rest.foldl betterGroup a).priority := by
  intro rest
  induction rest with
  | nil =>
    intro a
    exact ⟨[], [], rfl, by intro x hx; simp at hx⟩
  | cons b rest ih =>
    intro a
    have hres : ((b :: rest).foldl betterGroup a) =
        rest.foldl betterGroup (betterGroup a b) := rfl
    rw [hres]
    set res := rest.foldl betterGroup (betterGroup a b) with hresdef
    obtain ⟨l1, l2, heq, hlt⟩ := ih (betterGroup a b)
    rw [← hresdef] at heq hlt
    by_cases hab : a.priority < b.priority
    · have hb : betterGroup a b = b := by unfold betterGroup; simp [hab]
      rw [hb] at heq
      refine ⟨a :: l1, l2, by rw [List.cons_append, heq], ?_⟩
      intro x hx
      rcases List.mem_cons.mp hx with h | h
      · have hbr : b.priority ≤ res.priority := by
          have h1 := foldl_better_ge rest (betterGroup a b) (betterGroup a b)
            (List.mem_cons_self _ _)
          rw [← hresdef] at h1
          rw [hb] at h1
          exact h1
        rw [h]
        exact lt_of_lt_of_le hab hbr
      · exact hlt x h
    · have ha : betterGroup a b = a := by unfold betterGroup; simp [hab]
      rw [ha] at heq
      cases l1 with
      | nil =>
        simp only [List.nil_append] at heq
        injection heq with h1 h2
        refine ⟨[], b :: rest, ?_, by intro x hx; simp at hx⟩
        rw [← h1]
        rfl
      | cons c l1t =>
        rw [List.cons_append] at heq
        injection heq with h1 h2
      /- the accumulator `a` sits inside `l1`, so `a`'s priority is strictly
         below the result's; `b ≤ a` transfers that bound to `b`. -/
        have hamem : a.priority < res.priority := by
          have h3 := hlt c (List.mem_cons_self _ _)
          rw [← h1] at h3
          exact h3
        refine ⟨a :: b :: l1t, l2, ?_, ?_⟩
        · rw [List.cons_append, List.cons_append, ← h2]
        · intro x hx
          rcases List.mem_cons.mp hx with h | h
          · rw [h]; exact hamem
          · rcases List.mem_cons.mp h with h' | h'
            · rw [h']
              exact lt_of_le_of_lt (not_lt.mp hab) hamem
            · exact hlt x (List.mem_cons_of_mem _ h')

/-- Fixture: a one-module graph with a single entry. -/
def gW : ModuleGraph :=
  { modules := [{ id := "a", size := 100 }], edges := [], entries := ["a"] }

/-- Fixture: a lenient configuration with no cache groups. -/
def cfgW : Config :=
  { groups := [],
    thresholds :=
      { minSize := 0, minRemainingSize := 0, minChunks := 99,
        maxAsyncRequests := 30, maxInitialRequests := 30,
        enforceSizeThreshold := 50000 } }

/-- Fixture: the plan produced for `gW` under `cfgW`. -/
def planW : PartitionPlan := assemblePlan gW (planChunks cfgW gW)

/-- Fixture: thresholds with `minSize = 20000` for the size-filter scenario. -/
def t4 : Thresholds :=
  { minSize := 20000, minRemainingSize := 0, minChunks := 1,
    maxAsyncRequests := 30, maxInitialRequests := 30,
    enforceSizeThreshold := 50000 }

/-- Fixture: graph with an edge from the consumer module into the candidate
module. -/
def g4 : ModuleGraph :=
  { modules := [{ id := "a", size := 100 }, { id := "z", size := 500 }],
    edges := [{ source := "a", target := "z", kind := EdgeKind.sync }],
    entries := ["a"] }

/-- Fixture: the consumer chunk of the size-filter scenario. -/
def tgt4 : CChunk :=
  { key := ChunkKey.inlined "a", members := ["a"], size := 100, priority := 0 }

/-- Fixture: a 500-byte candidate chunk, far below `minSize = 20000`. -/
def cand4 : CChunk :=
  { key := ChunkKey.common ["a"], members := ["z"], size := 500, priority := -20 }

/-- Fixture: three initial chunks of one entry, priorities 5, 1 and 2. -/
def chunkA5 : CChunk :=
  { key := ChunkKey.group "a5" [], members := ["a5"], size := 1000, priority := 5 }

/-- Fixture: the lowest-priority capping victim. -/
def chunkB5 : CChunk :=
  { key := ChunkKey.group "b5" [], members := ["b5"], size := 300, priority := 1 }

/-- Fixture: the next-highest-priority sibling the victim merges into. -/
def chunkC5x : CChunk :=
  { key := ChunkKey.group "c5" [], members := ["c5"], size := 400, priority := 2 }

/-- Fixture: thresholds for the capping scenario. -/
def tCap : Thresholds :=
  { minSize := 0, minRemainingSize := 0, minChunks := 1,
    maxAsyncRequests := 30, maxInitialRequests := 2,
    enforceSizeThreshold := 50000 }

/-- Fixture: a chunk held above the enforcement threshold. -/
def bigChunk : CChunk :=
  { key := ChunkKey.group "big" [], members := ["big"], size := 60000,
    priority := 0 }

/-- Fixture: entry `A` sync-imports `X`, async-imports `Y`; `Y` sync-imports
`X` (the dual-reachability scenario around `src/components/App.js`). -/
def g6 : ModuleGraph :=
  { modules := [{ id := "A", size := 100 }, { id := "X", size := 50 },
      { id := "Y", size := 70 }],
    edges := [{ source := "A", target := "X", kind := EdgeKind.sync },
      { source := "A", target := "Y", kind := EdgeKind.async },
      { source := "Y", target := "X", kind := EdgeKind.sync }],
    entries := ["A"] }

/-- Fixture: configuration for the dual-reachability scenario. -/
def cfg6 : Config :=
  { groups := [],
    thresholds :=
      { minSize := 0, minRemainingSize := 0, minChunks := 3,
        maxAsyncRequests := 30, maxInitialRequests := 30,
        enforceSizeThreshold := 50000 } }

/-- Fixture: a graph whose single 100-byte entry chunk is enforced. -/
def gU : ModuleGraph :=
  { modules := [{ id := "a", size := 100 }], edges := [], entries := ["a"] }

/-- Fixture: unsatisfiable configuration — the enforcement threshold keeps the
chunk while `maxInitialRequests = 0` forbids it. -/
def cfgU : Config :=
  { groups := [],
    thresholds :=
      { minSize := 0, minRemainingSize := 0, minChunks := 9,
        maxAsyncRequests := 30, maxInitialRequests := 0,
        enforceSizeThreshold := 1 } }

/-- Fixture: two unrelated entries both importing `Z`. -/
def g9 : ModuleGraph :=
  { modules := [{ id := "A", size := 100 }, { id := "B", size := 100 },
      { id := "Z", size := 50 }],
    edges := [{ source := "A", target := "Z", kind := EdgeKind.sync },
      { source := "B", target := "Z", kind := EdgeKind.sync }],
    entries := ["A", "B"] }

/-- Fixture: configuration with `minChunks = 2` and no cache groups. -/
def cfg9 : Config :=
  { groups := [],
    thresholds :=
      { minSize := 0, minRemainingSize := 0, minChunks := 2,
        maxAsyncRequests := 30, maxInitialRequests := 30,
        enforceSizeThreshold := 50000 } }

/-! ### Helper lemmas: deduplicating accumulation -/

lemma mem_pushNew {α : Type} [DecidableEq α] (acc : List α) (w x : α) :
    x ∈ pushNew acc w ↔ x ∈ acc ∨ x = w := by
  unfold pushNew
  by_cases h : w ∈ acc
  · rw [if_pos h]
    constructor
    · exact Or.inl
    · intro hx
      rcases hx with hx | hx
      · exact hx
      · rw [hx]; exact h
  · rw [if_neg h]
    simp [List.mem_append]

lemma nodup_pushNew {α : Type} [DecidableEq α] (acc : List α) (w : α)
    (h : acc.Nodup) : (pushNew acc w).Nodup := by
  unfold pushNew
  by_cases hw : w ∈ acc
  · rw [if_pos hw]; exact h
  · rw [if_neg hw]
    refine List.Nodup.append h (List.nodup_singleton w) ?_
    intro x hx hx'
    rw [List.mem_singleton] at hx'
    rw [hx'] at hx
    exact hw hx

lemma mem_foldl_pushNew {α : Type} [DecidableEq α] :
    ∀ (l : List α) (init : List α) (x : α),
      x ∈ l.foldl pushNew init ↔ x ∈ init ∨ x ∈ l := by
  intro l
  induction l with
  | nil => intro init x; simp
  | cons a l ih =>
    intro init x
    have h1 : (a :: l).foldl pushNew init = l.foldl pushNew (pushNew init a) := rfl
    rw [h1, ih (pushNew init a) x, mem_pushNew]
    constructor
    · rintro ((h | h) | h)
      · exact Or.inl h
      · exact Or.inr (by rw [h]; exact List.mem_cons_self _ _)
      · exact Or.inr (List.mem_cons_of_mem _ h)
    · rintro (h | h)
      · exact Or.inl (Or.inl h)
      · rcases List.mem_cons.mp h with h' | h'
        · exact Or.inl (Or.inr h')
        · exact Or.inr h'

lemma nodup_foldl_pushNew {α : Type} [DecidableEq α] :
    ∀ (l : List α) (init : List α), init.Nodup → (l.foldl pushNew init).Nodup := by
  intro l
  induction l with
  | nil => intro init h; exact h
  | cons a l ih =>
    intro init h
    exact ih (pushNew init a) (nodup_pushNew init a h)

/-! ### Helper lemmas: materialization is a partition -/

lemma chunkKeysOf_eq (cfg : Config) (g : ModuleGraph) :
    chunkKeysOf cfg g = (g.modules.map (assignKey cfg g)).foldl pushNew [] := by
  unfold chunkKeysOf
  rw [List.foldl_map]

lemma mem_chunkKeysOf (cfg : Config) (g : ModuleGraph) (k : ChunkKey) :
    k ∈ chunkKeysOf cfg g ↔ ∃ m ∈ g.modules, assignKey cfg g m = k := by
  rw [chunkKeysOf_eq, mem_foldl_pushNew]
  simp [List.mem_map]

lemma nodup_chunkKeysOf (cfg : Config) (g : ModuleGraph) :
    (chunkKeysOf cfg g).Nodup := by
  rw [chunkKeysOf_eq]
  exact nodup_foldl_pushNew _ _ List.nodup_nil

lemma keysOf_materialize (cfg : Config) (g : ModuleGraph) :
    keysOf (materialize cfg g) = chunkKeysOf cfg g := by
  unfold keysOf materialize
  rw [List.map_map]
  have h : (CChunk.key ∘ fun k => (⟨k, membersOf cfg g k, membersSize cfg g k,
      keyPriority cfg k⟩ : CChunk)) = id := rfl
  rw [h, List.map_id]

lemma mem_membersOf {cfg : Config} {g : ModuleGraph}
    (hnd : (g.modules.map Module.id).Nodup)
    {m : Module} (hm : m ∈ g.modules) (k : ChunkKey) :
    m.id ∈ membersOf cfg g k ↔ assignKey cfg g m = k := by
  unfold membersOf
  rw [List.mem_map]
  constructor
  · rintro ⟨m', hm', hid⟩
    rw [List.mem_filter] at hm'
    have hmm : m' = m := List.inj_on_of_nodup_map hnd hm'.1 hm hid
    have h2 := hm'.2
    rw [hmm] at h2
    exact beq_iff_eq.mp h2
  · intro hk
    exact ⟨m, List.mem_filter.mpr ⟨hm, beq_iff_eq.mpr hk⟩, rfl⟩

lemma nChunksWith_materialize {cfg : Config} {g : ModuleGraph}
    (hnd : (g.modules.map Module.id).Nodup)
    {m : Module} (hm : m ∈ g.modules) :
    nChunksWith m.id (materialize cfg g) = 1 := by
  unfold nChunksWith materialize
  rw [List.countP_map]
  have hcong : List.countP
      ((fun c => decide (m.id ∈ c.members)) ∘ fun k =>
        (⟨k, membersOf cfg g k, membersSize cfg g k, keyPriority cfg k⟩ : CChunk))
      (chunkKeysOf cfg g) =
      List.countP (fun k => k == assignKey cfg g m) (chunkKeysOf cfg g) := by
    apply List.countP_congr
    intro k _
    simp only [Function.comp]
    rw [decide_eq_true_iff, mem_membersOf hnd hm k, beq_iff_eq]
    constructor
    · intro h; exact h.symm
    · intro h; exact h.symm
  rw [hcong]
  have hmem : assignKey cfg g m ∈ chunkKeysOf cfg g :=
    (mem_chunkKeysOf cfg g _).mpr ⟨m, hm, rfl⟩
  have hcount := List.count_eq_one_of_mem (nodup_chunkKeysOf cfg g) hmem
  rw [← hcount]
  rfl

/-! ### Helper lemmas: merging preserves the partition -/

lemma keysOf_mergeInto (cs : List CChunk) (tgtKey : ChunkKey) (v : CChunk) :
    keysOf (mergeInto cs tgtKey v) = keysOf cs := by
  unfold keysOf mergeInto
  rw [List.map_map]
  apply List.map_congr_left
  intro c _
  simp only [Function.comp]
  by_cases h : c.key == tgtKey
  · rw [if_pos h]
  · rw [if_neg h]

lemma keysOf_removeAndMerge (cs : List CChunk) (v : CChunk) (tgtKey : ChunkKey) :
    keysOf (removeAndMerge cs v tgtKey) = keysOf (cs.erase v) :=
  keysOf_mergeInto _ _ _

lemma keysOf_erase_sublist (cs : List CChunk) (v : CChunk) :
    (keysOf (cs.erase v)).Sublist (keysOf cs) :=
  List.Sublist.map CChunk.key (List.erase_sublist v cs)

lemma nodup_keys_removeAndMerge {cs : List CChunk} (v : CChunk) (tgtKey : ChunkKey)
    (hnd : (keysOf cs).Nodup) : (keysOf (removeAndMerge cs v tgtKey)).Nodup := by
  rw [keysOf_removeAndMerge]
  exact List.Nodup.sublist (keysOf_erase_sublist cs v) hnd

lemma length_removeAndMerge {cs : List CChunk} {v : CChunk} (tgtKey : ChunkKey)
    (hv : v ∈ cs) : (removeAndMerge cs v tgtKey).length = cs.length - 1 := by
  unfold removeAndMerge mergeInto
  rw [List.length_map, List.length_erase_of_mem hv]

/-- Merging a chunk with a single container of `i` into a sibling keeps `i`
in exactly one chunk. -/
lemma nChunksWith_removeAndMerge
    {i : String} {cs : List CChunk} {v tgt : CChunk}
    (hnd : (keysOf cs).Nodup) (hv : v ∈ cs) (htgt : tgt ∈ cs.erase v)
    (hone : nChunksWith i cs = 1) :
    nChunksWith i (removeAndMerge cs v tgt.key) = 1 := by
  have hperm := List.perm_cons_erase hv
  have hsplit : nChunksWith i cs =
      nChunksWith i (cs.erase v) +
        (if decide (i ∈ v.members) = true then 1 else 0) := by
    unfold nChunksWith
    rw [List.Perm.countP_eq _ hperm, List.countP_cons]
  unfold removeAndMerge mergeInto nChunksWith
  rw [List.countP_map]
  by_cases hiv : i ∈ v.members
  · have hz : nChunksWith i (cs.erase v) = 0 := by
      rw [hsplit] at hone
      simp [hiv] at hone
      exact hone
    have hnone : ∀ c ∈ cs.erase v, ¬ (decide (i ∈ c.members) = true) := by
      unfold nChunksWith at hz
      exact List.countP_eq_zero.mp hz
    have hcong : List.countP
        ((fun c => decide (i ∈ c.members)) ∘ fun t =>
          if t.key == tgt.key then
            { t with members := t.members ++ v.members, size := t.size + v.size }
          else t)
        (cs.erase v) =
        List.countP (fun c => c.key == tgt.key) (cs.erase v) := by
      apply List.countP_congr
      intro c hc
      simp only [Function.comp]
      by_cases hk : c.key == tgt.key
      · simp [hk, List.mem_append, hiv]
      · have hic := hnone c hc
        simp at hic
        simp [hk, hic]
    rw [hcong]
    have hkeys : List.countP (fun c => c.key == tgt.key) (cs.erase v) =
        List.countP (fun k => k == tgt.key) (keysOf (cs.erase v)) := by
      unfold keysOf
      rw [List.countP_map]
      rfl
    rw [hkeys]
    have hndE : (keysOf (cs.erase v)).Nodup :=
      List.Nodup.sublist (keysOf_erase_sublist cs v) hnd
    have hmemE : tgt.key ∈ keysOf (cs.erase v) := List.mem_map_of_mem CChunk.key htgt
    have hcount := List.count_eq_one_of_mem hndE hmemE
    rw [← hcount]
    rfl
  · have h1 : nChunksWith i (cs.erase v) = 1 := by
      rw [hsplit] at hone
      simp [hiv] at hone
      exact hone
    have hcong : List.countP
        ((fun c => decide (i ∈ c.members)) ∘ fun t =>
          if t.key == tgt.key then
            { t with members := t.members ++ v.members, size := t.size + v.size }
          else t)
        (cs.erase v) =
        List.countP (fun c => decide (i ∈ c.members)) (cs.erase v) := by
      apply List.countP_congr
      intro c _
      simp only [Function.comp]
      by_cases hk : c.key == tgt.key
      · simp [hk, List.mem_append, hiv]
      · simp [hk]
    rw [hcong]
    exact h1

/-- Merging never resurrects an identifier that no chunk contains. -/
lemma nChunksWith_zero_removeAndMerge
    {i : String} {cs : List CChunk} {v : CChunk} (tgtKey : ChunkKey)
    (hv : v ∈ cs) (hzero : nChunksWith i cs = 0) :
    nChunksWith i (removeAndMerge cs v tgtKey) = 0 := by
  have hall : ∀ c ∈ cs, ¬ (decide (i ∈ c.members) = true) :=
    List.countP_eq_zero.mp hzero
  have hiv : ¬ i ∈ v.members := by
    have := hall v hv
    simp at this
    exact this
  unfold removeAndMerge mergeInto nChunksWith
  rw [List.countP_map]
  apply List.countP_eq_zero.mpr
  intro c hc
  have hic : ¬ i ∈ c.members := by
    have := hall c (List.Sublist.mem hc (List.erase_sublist v cs))
    simp at this
    exact this
  simp only [Function.comp]
  by_cases hk : c.key == tgtKey
  · simp [hk, List.mem_append, hiv, hic]
  · simp [hk, hic]

/-! ### Helper lemmas: victim and target selection -/

lemma pickBest_mem {better : CChunk → CChunk → Bool} {l : List CChunk} {c : CChunk}
    (h : pickBest better l = some c) : c ∈ l := by
  cases l with
  | nil => exact Option.noConfusion h
  | cons a rest =>
    unfold pickBest at h
    injection h with h'
    rw [← h']
    exact foldl_choice_mem _ (fun x y => by
      by_cases hb : better x y = true
      · right; simp [hb]
      · left; simp [hb]) rest a

lemma pickVictim_mem {t : Thresholds} {cs : List CChunk} {v : CChunk}
    (h : pickVictim t cs = some v) :
    v ∈ cs ∧ v.size < t.enforceSizeThreshold := by
  unfold pickVictim at h
  have h1 := pickBest_mem h
  rw [List.mem_filter] at h1
  exact ⟨h1.1, by
    have := h1.2
    simp at this
    exact this⟩

lemma pickTarget_mem {v : CChunk} {rest : List CChunk} {tgt : CChunk}
    (h : pickTarget v rest = some tgt) : tgt ∈ rest := by
  unfold pickTarget at h
  cases h1 : pickBest targetBetter
      (rest.filter (fun d => decide (v.priority ≤ d.priority))) with
  | some c =>
    rw [h1] at h
    injection h with h2
    rw [← h2]
    exact List.mem_of_mem_filter (pickBest_mem h1)
  | none =>
    rw [h1] at h
    exact pickBest_mem h

/-- Shape of a successful capping step: it removes a non-enforced victim and
merges it into a sibling. -/
lemma capStep_some {t : Thresholds} {cs cs2 : List CChunk}
    (h : capStep t cs = some cs2) :
    ∃ v tgt, v ∈ cs ∧ v.size < t.enforceSizeThreshold ∧ tgt ∈ cs.erase v ∧
      cs2 = removeAndMerge cs v tgt.key := by
  unfold capStep at h
  cases hv : pickVictim t cs with
  | none => rw [hv] at h; exact Option.noConfusion h
  | some v =>
    simp only [hv] at h
    cases ht : pickTarget v (cs.erase v) with
    | none =>
      rw [ht] at h
      exact Option.noConfusion h
    | some tgt =>
      rw [ht] at h
      injection h with h2
      obtain ⟨hmem, hsize⟩ := pickVictim_mem hv
      exact ⟨v, tgt, hmem, hsize, pickTarget_mem ht, h2.symm⟩

lemma capStep_length {t : Thresholds} {cs cs2 : List CChunk}
    (h : capStep t cs = some cs2) : cs2.length < cs.length := by
  obtain ⟨v, tgt, hv, _, _, heq⟩ := capStep_some h
  rw [heq, length_removeAndMerge tgt.key hv]
  have : 1 ≤ cs.length := List.length_pos.mpr (List.ne_nil_of_mem hv)
  omega

lemma capStep_nodup_keys {t : Thresholds} {cs cs2 : List CChunk}
    (h : capStep t cs = some cs2) (hnd : (keysOf cs).Nodup) :
    (keysOf cs2).Nodup := by
  obtain ⟨v, tgt, _, _, _, heq⟩ := capStep_some h
  rw [heq]
  exact nodup_keys_removeAndMerge v tgt.key hnd

lemma capStep_count_one {t : Thresholds} {cs cs2 : List CChunk} {i : String}
    (h : capStep t cs = some cs2) (hnd : (keysOf cs).Nodup)
    (hone : nChunksWith i cs = 1) : nChunksWith i cs2 = 1 := by
  obtain ⟨v, tgt, hv, _, htgt, heq⟩ := capStep_some h
  rw [heq]
  exact nChunksWith_removeAndMerge hnd hv htgt hone

lemma capStep_count_zero {t : Thresholds} {cs cs2 : List CChunk} {i : String}
    (h : capStep t cs = some cs2) (hzero : nChunksWith i cs = 0) :
    nChunksWith i cs2 = 0 := by
  obtain ⟨v, tgt, hv, _, _, heq⟩ := capStep_some h
  rw [heq]
  exact nChunksWith_zero_removeAndMerge tgt.key hv hzero

/-- An enforced chunk survives a capping step, with its key and its
enforcement intact. -/
lemma capStep_keeps_enforced {t : Thresholds} {cs cs2 : List CChunk} {c : CChunk}
    (h : capStep t cs = some cs2) (hc : c ∈ cs)
    (hbig : t.enforceSizeThreshold ≤ c.size) :
    ∃ c2 ∈ cs2, c2.key = c.key ∧ t.enforceSizeThreshold ≤ c2.size ∧
      c.members.Sublist c2.members := by
  obtain ⟨v, tgt, _, hvsize, _, heq⟩ := capStep_some h
  have hne : c ≠ v := by
    intro hcv
    rw [hcv] at hbig
    omega
  have hcE : c ∈ cs.erase v := (List.mem_erase_of_ne hne).mpr hc
  rw [heq]
  unfold removeAndMerge mergeInto
  by_cases hk : c.key == tgt.key
  · refine ⟨{ c with members := c.members ++ v.members, size := c.size + v.size },
      ?_, rfl, by show t.enforceSizeThreshold ≤ c.size + v.size; omega,
      List.sublist_append_left _ _⟩
    have h3 : (if (c.key == tgt.key) = true then
        { c with members := c.members ++ v.members, size := c.size + v.size }
      else c) ∈ List.map (fun tc =>
        if tc.key == tgt.key then
          { tc with members := tc.members ++ v.members, size := tc.size + v.size }
        else tc) (cs.erase v) := List.mem_map_of_mem _ hcE
    rw [if_pos hk] at h3
    exact h3
  · refine ⟨c, ?_, rfl, hbig, List.Sublist.refl _⟩
    have h3 : (if (c.key == tgt.key) = true then
        { c with members := c.members ++ v.members, size := c.size + v.size }
      else c) ∈ List.map (fun tc =>
        if tc.key == tgt.key then
          { tc with members := tc.members ++ v.members, size := tc.size + v.size }
        else tc) (cs.erase v) := List.mem_map_of_mem _ hcE
    rw [if_neg hk] at h3
    exact h3

/-! ### Helper lemmas: the capping loop -/

lemma capLoop_le_or_stuck (t : Thresholds) (limit : Nat) :
    ∀ (fuel : Nat) (cs : List CChunk), cs.length ≤ fuel →
      (capLoop t limit fuel cs).length ≤ limit ∨
        capStep t (capLoop t limit fuel cs) = none := by
  intro fuel
  induction fuel with
  | zero =>
    intro cs hlen
    left
    unfold capLoop
    omega
  | succ fuel ih =>
    intro cs hlen
    unfold capLoop
    by_cases hle : cs.length ≤ limit
    · rw [if_pos hle]; left; exact hle
    · rw [if_neg hle]
      cases hstep : capStep t cs with
      | none => right; exact hstep
      | some cs2 =>
        have hlt := capStep_length hstep
        exact ih cs2 (by omega)

lemma capLoop_nodup_count (t : Thresholds) (limit : Nat) (i : String) :
    ∀ (fuel : Nat) (cs : List CChunk), (keysOf cs).Nodup →
      (nChunksWith i cs = 1 → nChunksWith i (capLoop t limit fuel cs) = 1) ∧
      (nChunksWith i cs = 0 → nChunksWith i (capLoop t limit fuel cs) = 0) := by
  intro fuel
  induction fuel with
  | zero =>
    intro cs _
    unfold capLoop
    exact ⟨fun h => h, fun h => h⟩
  | succ fuel ih =>
    intro cs hnd
    unfold capLoop
    by_cases hle : cs.length ≤ limit
    · rw [if_pos hle]; exact ⟨fun h => h, fun h => h⟩
    · rw [if_neg hle]
      cases hstep : capStep t cs with
      | none => exact ⟨fun h => h, fun h => h⟩
      | some cs2 =>
        have hnd2 := capStep_nodup_keys hstep hnd
        exact ⟨fun h => (ih cs2 hnd2).1 (capStep_count_one hstep hnd h),
          fun h => (ih cs2 hnd2).2 (capStep_count_zero hstep h)⟩

lemma capLoop_keeps_enforced (t : Thresholds) (limit : Nat) :
    ∀ (fuel : Nat) (cs : List CChunk) (c : CChunk), c ∈ cs →
      t.enforceSizeThreshold ≤ c.size →
      ∃ c2 ∈ capLoop t limit fuel cs, c2.key = c.key ∧
        t.enforceSizeThreshold ≤ c2.size ∧ c.members.Sublist c2.members := by
  intro fuel
  induction fuel with
  | zero =>
    intro cs c hc hbig
    unfold capLoop
    exact ⟨c, hc, rfl, hbig, List.Sublist.refl _⟩
  | succ fuel ih =>
    intro cs c hc hbig
    unfold capLoop
    by_cases hle : cs.length ≤ limit
    · rw [if_pos hle]; exact ⟨c, hc, rfl, hbig, List.Sublist.refl _⟩
    · rw [if_neg hle]
      cases hstep : capStep t cs with
      | none => exact ⟨c, hc, rfl, hbig, List.Sublist.refl _⟩
      | some cs2 =>
        obtain ⟨c2, hc2, hkey, hbig2, hsub⟩ := capStep_keeps_enforced hstep hc hbig
        obtain ⟨c3, hc3, hkey3, hbig3, hsub3⟩ := ih cs2 c2 hc2 hbig2
        exact ⟨c3, hc3, hkey3.trans hkey, hbig3, hsub.trans hsub3⟩

/-! ### Helper lemmas: the size-filtering pass -/

lemma consumerOf_mem {g : ModuleGraph} {rest : List CChunk} {c tgt : CChunk}
    (h : consumerOf g rest c = some tgt) : tgt ∈ rest :=
  List.mem_of_find?_eq_some h

/-- A size-filtering decision either leaves the chunk list unchanged or
removes one chunk and merges it into a sibling. -/
lemma sizeFilterStep_cases (t : Thresholds) (g : ModuleGraph)
    (cs : List CChunk) (k : ChunkKey) :
    sizeFilterStep t g cs k = cs ∨
      ∃ c tgt, c ∈ cs ∧ tgt ∈ cs.erase c ∧
        sizeFilterStep t g cs k = removeAndMerge cs c tgt.key := by
  unfold sizeFilterStep
  cases hf : cs.find? (fun c => c.key == k) with
  | none => left; rfl
  | some c =>
    by_cases h1 : t.minSize ≤ c.size
    · left; simp [h1]
    · by_cases h2 : t.enforceSizeThreshold ≤ c.size
      · left; simp [h1, h2]
      · cases hc : consumerOf g (cs.erase c) c with
        | none => left; simp [h1, h2, hc]
        | some tgt =>
          right
          exact ⟨c, tgt, List.mem_of_find?_eq_some hf, consumerOf_mem hc,
            by simp [h1, h2, hc]⟩

lemma sizeFilterStep_preserves {t : Thresholds} {g : ModuleGraph} {i : String}
    {cs : List CChunk} (k : ChunkKey)
    (h : (keysOf cs).Nodup ∧ nChunksWith i cs = 1) :
    (keysOf (sizeFilterStep t g cs k)).Nodup ∧
      nChunksWith i (sizeFilterStep t g cs k) = 1 := by
  rcases sizeFilterStep_cases t g cs k with heq | ⟨c, tgt, hc, htgt, heq⟩
  · rw [heq]; exact h
  · rw [heq]
    exact ⟨nodup_keys_removeAndMerge c tgt.key h.1,
      nChunksWith_removeAndMerge h.1 hc htgt h.2⟩

lemma foldl_invariant {α β : Type} (P : α → Prop) (f : α → β → α)
    (hstep : ∀ a b, P a → P (f a b)) :
    ∀ (l : List β) (a : α), P a → P (l.foldl f a) := by
  intro l
  induction l with
  | nil => intro a h; exact h
  | cons b l ih => intro a h; exact ih (f a b) (hstep a b h)

lemma sizeFilter_preserves {t : Thresholds} {g : ModuleGraph} {i : String}
    {cs : List CChunk} (hnd : (keysOf cs).Nodup) (hone : nChunksWith i cs = 1) :
    (keysOf (sizeFilter t g cs)).Nodup ∧ nChunksWith i (sizeFilter t g cs) = 1 := by
  unfold sizeFilter
  exact foldl_invariant
    (fun cs2 => (keysOf cs2).Nodup ∧ nChunksWith i cs2 = 1)
    (sizeFilterStep t g)
    (fun a b hP => sizeFilterStep_preserves b hP)
    _ cs ⟨hnd, hone⟩

/-! ### Helper lemmas: assembling the partition fact for the whole plan -/

lemma countP_filter_split {α : Type} (p q : α → Bool) (l : List α) :
    List.countP p l =
      List.countP p (l.filter q) + List.countP p (l.filter (fun a => !q a)) := by
  induction l with
  | nil => rfl
  | cons a l ih =>
    by_cases hq : q a = true
    · by_cases hp : p a = true
      · simp [List.filter_cons, List.countP_cons, hq, hp, ih]
        omega
      · simp [List.filter_cons, List.countP_cons, hq, hp, ih]
    · by_cases hp : p a = true
      · simp [List.filter_cons, List.countP_cons, hq, hp, ih]
        omega
      · simp [List.filter_cons, List.countP_cons, hq, hp, ih]

lemma keysOf_filter_nodup (q : CChunk → Bool) {cs : List CChunk}
    (hnd : (keysOf cs).Nodup) : (keysOf (cs.filter q)).Nodup :=
  List.Nodup.sublist (List.Sublist.map CChunk.key (List.filter_sublist cs)) hnd

/-- Every module of the graph sits in exactly one chunk of the final plan. -/
lemma nChunksWith_planChunks {cfg : Config} {g : ModuleGraph}
    (hnd : (g.modules.map Module.id).Nodup) {m : Module} (hm : m ∈ g.modules) :
    nChunksWith m.id (planChunks cfg g) = 1 := by
  have h0nd : (keysOf (materialize cfg g)).Nodup := by
    rw [keysOf_materialize]
    exact nodup_chunkKeysOf cfg g
  have h0c : nChunksWith m.id (materialize cfg g) = 1 :=
    nChunksWith_materialize hnd hm
  obtain ⟨h1nd, h1c⟩ := sizeFilter_preserves h0nd h0c
  have hsplit : nChunksWith m.id (sizeFilter cfg.thresholds g (materialize cfg g)) =
      nChunksWith m.id
        ((sizeFilter cfg.thresholds g (materialize cfg g)).filter (isInitialChunk g)) +
      nChunksWith m.id
        ((sizeFilter cfg.thresholds g (materialize cfg g)).filter
          (fun c => !(isInitialChunk g c))) :=
    countP_filter_split _ _ _
  have hndI := keysOf_filter_nodup (isInitialChunk g) h1nd
  have hndA := keysOf_filter_nodup (fun c => !(isInitialChunk g c)) h1nd
  rw [h1c] at hsplit
  have hcases :
      (nChunksWith m.id
          ((sizeFilter cfg.thresholds g (materialize cfg g)).filter (isInitialChunk g)) = 1 ∧
        nChunksWith m.id
          ((sizeFilter cfg.thresholds g (materialize cfg g)).filter
            (fun c => !(isInitialChunk g c))) = 0) ∨
      (nChunksWith m.id
          ((sizeFilter cfg.thresholds g (materialize cfg g)).filter (isInitialChunk g)) = 0 ∧
        nChunksWith m.id
          ((sizeFilter cfg.thresholds g (materialize cfg g)).filter
            (fun c => !(isInitialChunk g c))) = 1) := by
    omega
  unfold planChunks initialPlanChunks asyncPlanChunks capRequests
  unfold nChunksWith
  rw [List.countP_append]
  rcases hcases with ⟨hI, hA⟩ | ⟨hI, hA⟩
  · have hI' := (capLoop_nodup_count cfg.thresholds
      cfg.thresholds.maxInitialRequests m.id
      ((sizeFilter cfg.thresholds g (materialize cfg g)).filter (isInitialChunk g)).length
      ((sizeFilter cfg.thresholds g (materialize cfg g)).filter (isInitialChunk g))
      hndI).1 hI
    have hA' := (capLoop_nodup_count cfg.thresholds
      cfg.thresholds.maxAsyncRequests m.id
      ((sizeFilter cfg.thresholds g (materialize cfg g)).filter
        (fun c => !(isInitialChunk g c))).length
      ((sizeFilter cfg.thresholds g (materialize cfg g)).filter
        (fun c => !(isInitialChunk g c)))
      hndA).2 hA
    unfold nChunksWith at hI' hA'
    rw [hI', hA']
  · have hI' := (capLoop_nodup_count cfg.thresholds
      cfg.thresholds.maxInitialRequests m.id
      ((sizeFilter cfg.thresholds g (materialize cfg g)).filter (isInitialChunk g)).length
      ((sizeFilter cfg.thresholds g (materialize cfg g)).filter (isInitialChunk g))
      hndI).2 hI
    have hA' := (capLoop_nodup_count cfg.thresholds
      cfg.thresholds.maxAsyncRequests m.id
      ((sizeFilter cfg.thresholds g (materialize cfg g)).filter
        (fun c => !(isInitialChunk g c))).length
      ((sizeFilter cfg.thresholds g (materialize cfg g)).filter
        (fun c => !(isInitialChunk g c)))
      hndA).1 hA
    unfold nChunksWith at hI' hA'
    rw [hI', hA']

/-! ### Helper lemmas: the victim choice is minimal -/

/-- The merge-preference order on chunks: lower priority first, then smaller
size. -/
def leVict (a b : CChunk) : Prop :=
  a.priority < b.priority ∨ (a.priority = b.priority ∧ a.size ≤ b.size)

lemma leVict_refl (a : CChunk) : leVict a a := Or.inr ⟨rfl, le_rfl⟩

lemma leVict_trans {a b c : CChunk} (h1 : leVict a b) (h2 : leVict b c) :
    leVict a c := by
  rcases h1 with h1 | ⟨h1, h1s⟩
  · rcases h2 with h2 | ⟨h2, _⟩
    · exact Or.inl (lt_trans h1 h2)
    · exact Or.inl (h2 ▸ h1)
  · rcases h2 with h2 | ⟨h2, h2s⟩
    · exact Or.inl (h1 ▸ h2)
    · exact Or.inr ⟨h1.trans h2, le_trans h1s h2s⟩

lemma victimBetter_true {a b : CChunk} (h : victimBetter a b = true) :
    leVict b a := by
  unfold victimBetter at h
  rcases Bool.or_eq_true_iff.mp h with h1 | h1
  · exact Or.inl (by exact_mod_cast of_decide_eq_true h1)
  · rcases Bool.and_eq_true_iff.mp h1 with ⟨h2, h3⟩
    exact Or.inr ⟨beq_iff_eq.mp h2, le_of_lt (of_decide_eq_true h3)⟩

lemma victimBetter_false {a b : CChunk} (h : victimBetter a b = false) :
    leVict a b := by
  unfold victimBetter at h
  rcases Bool.or_eq_false_iff.mp h with ⟨h1, h2⟩
  have hba : ¬ b.priority < a.priority := of_decide_eq_false h1
  rcases Bool.and_eq_false_iff.mp h2 with h3 | h3
  · have hne : a.priority ≠ b.priority := by
      intro he
      rw [he] at h3
      simp at h3
    exact Or.inl (lt_of_le_of_ne (not_lt.mp hba) (by exact hne))
  · have hbs : ¬ b.size < a.size := of_decide_eq_false h3
    rcases lt_or_eq_of_le (not_lt.mp hba) with hlt | heq
    · exact Or.inl hlt
    · exact Or.inr ⟨heq, not_lt.mp hbs⟩

/-- The fold underlying `pickVictim` lands on a minimum of the
merge-preference order. -/
lemma foldl_vict_min :
    ∀ (rest : List CChunk) (a : CChunk),
      ∀ x ∈ a :: rest,
        leVict (rest.foldl (fun p q => if victimBetter p q then q else p) a) x := by
  intro rest
  induction rest with
  | nil =>
    intro a x hx
    rcases List.mem_cons.mp hx with h | h
    · rw [h]; exact leVict_refl a
    · simp at h
  | cons b rest ih =>
    intro a x hx
    have hres : ((b :: rest).foldl (fun p q => if victimBetter p q then q else p) a) =
        rest.foldl (fun p q => if victimBetter p q then q else p)
          (if victimBetter a b then b else a) := rfl
    rw [hres]
    have hhead := ih (if victimBetter a b then b else a) _ (List.mem_cons_self _ _)
    rcases List.mem_cons.mp hx with h | h
    · rw [h]
      by_cases hb : victimBetter a b = true
      · rw [if_pos hb] at hhead ⊢
        exact leVict_trans hhead (victimBetter_true hb)
      · rw [if_neg hb] at hhead ⊢
        exact leVict_trans hhead (leVict_refl a)
    · rcases List.mem_cons.mp h with h' | h'
      · rw [h']
        by_cases hb : victimBetter a b = true
        · rw [if_pos hb] at hhead ⊢
          exact leVict_trans hhead (leVict_refl b)
        · rw [if_neg hb] at hhead ⊢
          exact leVict_trans hhead
            (victimBetter_false (Bool.eq_false_iff.mpr hb))
      · exact ih _ x (List.mem_cons_of_mem _ h')

/-- The chosen victim is minimal in priority, with smaller size breaking
ties, among all chunks eligible for merging. -/
lemma pickVictim_minimal {t : Thresholds} {cs : List CChunk} {v : CChunk}
    (h : pickVictim t cs = some v) :
    ∀ c ∈ cs, c.size < t.enforceSizeThreshold → leVict v c := by
  intro c hc hcsize
  have hcf : c ∈ cs.filter (fun c2 => decide (c2.size < t.enforceSizeThreshold)) :=
    List.mem_filter.mpr ⟨hc, by simp [hcsize]⟩
  unfold pickVictim pickBest at h
  cases hl : cs.filter (fun c2 => decide (c2.size < t.enforceSizeThreshold)) with
  | nil => rw [hl] at h; exact Option.noConfusion h
  | cons a rest =>
    rw [hl] at h hcf
    injection h with h2
    rw [← h2]
    exact foldl_vict_min rest a c hcf

end Bundler

namespace Bundler

/-- C10: in the first `AppComponent` variant exactly one dependency edge is
asynchronous — `./Dynamic`, annotated `webpackChunkName: 'dynamic-component'` —
and every other import (`react`, `./App.css`, `../../public/dog-img.jpg`,
`../shared/Button`, `./Dashboard`) is a synchronous static import. -/
theorem appComponent_single_async_import :
    appComponentImports.filter (fun i => i.kind == EdgeKind.async) =
      [{ target := "./Dynamic", kind := EdgeKind.async,
         chunkName := some "dynamic-component" }] ∧
    appComponentImports.filter (fun i => i.kind == EdgeKind.sync) =
      [ { target := "react", kind := EdgeKind.sync, chunkName := none },
        { target := "./App.css", kind := EdgeKind.sync, chunkName := none },
        { target := "../../public/dog-img.jpg", kind := EdgeKind.sync, chunkName := none },
        { target := "../shared/Button", kind := EdgeKind.sync, chunkName := none },
        { target := "./Dashboard", kind := EdgeKind.sync, chunkName := none } ] := by
  constructor <;> rfl

/-- C3: whenever at least one cache group matches a module, the winning group
dominates every matching group's priority and is the first declared among
those of maximal priority; in particular a matching group of priority 10 wins
over one of priority -10 whichever is declared first. -/
theorem selectGroup_highest_priority_first_declared :
    (∀ (gs : List CacheGroup) (m : Module), matchingGroups gs m ≠ [] →
      ∃ gsel, selectGroup gs m = some gsel ∧
        (∀ g' ∈ matchingGroups gs m, g'.priority ≤ gsel.priority) ∧
        ∃ l1 l2, matchingGroups gs m = l1 ++ gsel :: l2 ∧
          ∀ g' ∈ l1, g'.priority < gsel.priority) ∧
    (selectGroup [groupLow, groupHigh] mFix).map CacheGroup.name = some "high" ∧
    (selectGroup [groupHigh, groupLow] mFix).map CacheGroup.name = some "high" := by
  refine ⟨?_, rfl, rfl⟩
  intro gs m hne
  unfold selectGroup
  cases hmg : matchingGroups gs m with
  | nil => exact absurd hmg hne
  | cons g rest =>
    refine ⟨rest.foldl betterGroup g, rfl, ?_, ?_⟩
    · intro g' hg'
      exact foldl_better_ge rest g g' hg'
    · exact foldl_better_first rest g

/-- Witness for C3 at a concrete input: two all-matching groups of priorities
-10 and 10. -/
theorem selectGroup_highest_priority_first_declared_witness :
    ∃ gsel, selectGroup [groupLow, groupHigh] mFix = some gsel ∧
      (∀ g' ∈ matchingGroups [groupLow, groupHigh] mFix,
        g'.priority ≤ gsel.priority) ∧
      ∃ l1 l2, matchingGroups [groupLow, groupHigh] mFix = l1 ++ gsel :: l2 ∧
        ∀ g' ∈ l1, g'.priority < gsel.priority :=
  selectGroup_highest_priority_first_declared.1 [groupLow, groupHigh] mFix
    (by intro h; exact List.cons_ne_nil _ _ h)

/-- C8: the graph builder fails with `UnresolvedModuleError` exactly when some
reachable import target cannot be resolved — the error names such a target —
while on success a cycle among synchronous edges yields only the non-fatal
`cyclicImport` warning, with the graph built and carrying every declared edge;
concretely, a two-module synchronous cycle builds a graph in which both
modules reference each other, plus the warning. -/
theorem buildGraph_unresolved_error_and_cyclic_warning :
    (∀ (entries : List String) (R : Resolver),
      ((∃ e, buildGraph entries R = Except.error e) ↔
        ∃ v ∈ reachableIds R entries, rlookup R v = none) ∧
      (∀ e, buildGraph entries R = Except.error e →
        e.missing ∈ reachableIds R entries ∧ rlookup R e.missing = none) ∧
      (∀ g w, buildGraph entries R = Except.ok (g, w) →
        (BuildWarning.cyclicImport ∈ w ↔ hasSyncCycle R entries = true) ∧
        g.edges = declaredEdges R (reachableIds R entries) ∧
        g.entries = entries)) ∧
    buildGraph ["src/a.js"] cyclicResolver =
      Except.ok (cyclicGraph, [BuildWarning.cyclicImport]) := by
  constructor
  · intro entries R
    unfold buildGraph
    cases hfind : (reachableIds R entries).find? (fun v => (rlookup R v).isNone) with
    | some v =>
      refine ⟨⟨fun _ => ?_, fun _ => ⟨_, rfl⟩⟩, ?_, ?_⟩
      · have hp := List.find?_some hfind
        exact ⟨v, List.mem_of_find?_eq_some hfind,
          Option.isNone_iff_eq_none.mp hp⟩
      · intro e he
        injection he with h3
        rw [← h3]
        have hp := List.find?_some hfind
        exact ⟨List.mem_of_find?_eq_some hfind,
          Option.isNone_iff_eq_none.mp hp⟩
      · intro g w hok
        exact Except.noConfusion hok
    | none =>
      refine ⟨⟨fun h => ?_, fun h => ?_⟩, ?_, ?_⟩
      · obtain ⟨e, he⟩ := h
        exact Except.noConfusion he
      · obtain ⟨v, hv, hnone⟩ := h
        have h1 := List.find?_eq_none.mp hfind v hv
        rw [Option.isNone_iff_eq_none] at h1
        exact absurd hnone h1
      · intro e he
        exact Except.noConfusion he
      · intro g w hok
        injection hok with h1
        injection h1 with hg hw
        subst hg
        subst hw
        refine ⟨?_, rfl, rfl⟩
        by_cases hcyc : hasSyncCycle R entries = true
        · simp [hcyc]
        · simp [hcyc]
  · rfl

/-- Witness for C8: the ok-case conclusion instantiated at the concrete cyclic
resolver. -/
theorem buildGraph_unresolved_error_and_cyclic_warning_witness :
    (BuildWarning.cyclicImport ∈ [BuildWarning.cyclicImport] ↔
      hasSyncCycle cyclicResolver ["src/a.js"] = true) ∧
    cyclicGraph.edges =
      declaredEdges cyclicResolver (reachableIds cyclicResolver ["src/a.js"]) ∧
    cyclicGraph.entries = ["src/a.js"] :=
  (buildGraph_unresolved_error_and_cyclic_warning.1 ["src/a.js"] cyclicResolver).2.2
    cyclicGraph [BuildWarning.cyclicImport] (by rfl)

/-- C1: whenever planning succeeds, every module of the graph is assigned to
exactly one chunk of the resulting PartitionPlan (hence in particular to at
least one chunk); the engine never duplicates a module across chunks. -/
theorem partitionPlan_assigns_every_module_exactly_one_chunk :
    ∀ (cfg : Config) (g : ModuleGraph) (p : PartitionPlan),
      (g.modules.map Module.id).Nodup →
      planResult cfg g = Except.ok p →
      ∀ m ∈ g.modules,
        p.chunks.countP (fun c => decide (m.id ∈ c.members)) = 1 := by
  intro cfg g p hnd hok m hm
  unfold planResult at hok
  by_cases h1 : cfg.thresholds.maxInitialRequests < (initialPlanChunks cfg g).length
  · rw [if_pos h1] at hok
    exact Except.noConfusion hok
  · rw [if_neg h1] at hok
    by_cases h2 : cfg.thresholds.maxAsyncRequests < (asyncPlanChunks cfg g).length
    · rw [if_pos h2] at hok
      exact Except.noConfusion hok
    · rw [if_neg h2] at hok
      injection hok with hp
      rw [← hp]
      have hchunks : (assemblePlan g (planChunks cfg g)).chunks =
          (planChunks cfg g).map (toPlanChunk g) := rfl
      rw [hchunks, List.countP_map]
      have hcount := @nChunksWith_planChunks cfg g hnd m hm
      unfold nChunksWith at hcount
      have hcong : List.countP
          ((fun c => decide (m.id ∈ c.members)) ∘ toPlanChunk g)
          (planChunks cfg g) =
          List.countP (fun c => decide (m.id ∈ c.members)) (planChunks cfg g) := by
        apply List.countP_congr
        intro c _
        simp [Function.comp, toPlanChunk]
      rw [hcong]
      exact hcount

/-- Witness for C1: the one-module plan of `gW` holds module `a` in exactly
one chunk. -/
theorem partitionPlan_assigns_every_module_exactly_one_chunk_witness :
    planW.chunks.countP
      (fun c => decide ((Module.mk "a" 100).id ∈ c.members)) = 1 :=
  partitionPlan_assigns_every_module_exactly_one_chunk cfgW gW planW
    (by decide) (by rfl) (Module.mk "a" 100) (by decide)

/-- C2: repeated planning runs over an unchanged graph and configuration are
identical, and every emitted chunk identifier is the deterministic content
fingerprint of the sorted member identifiers — invariant under any
permutation of the member list, hence independent of allocation order. -/
theorem chunk_ids_deterministic_content_fingerprint :
    (∀ l₁ l₂ : List String, l₁.Perm l₂ → chunkId l₁ = chunkId l₂) ∧
    (∀ (cfg : Config) (g : ModuleGraph), planResult cfg g = planResult cfg g) ∧
    (∀ (cfg : Config) (g : ModuleGraph) (p : PartitionPlan),
      planResult cfg g = Except.ok p →
      ∀ c ∈ p.chunks, c.id = chunkId c.members) := by
  refine ⟨fun l₁ l₂ h => chunkId_eq_of_perm h, fun _ _ => rfl, ?_⟩
  intro cfg g p hok c hc
  unfold planResult at hok
  by_cases h1 : cfg.thresholds.maxInitialRequests < (initialPlanChunks cfg g).length
  · rw [if_pos h1] at hok
    exact Except.noConfusion hok
  · rw [if_neg h1] at hok
    by_cases h2 : cfg.thresholds.maxAsyncRequests < (asyncPlanChunks cfg g).length
    · rw [if_pos h2] at hok
      exact Except.noConfusion hok
    · rw [if_neg h2] at hok
      injection hok with hp
      rw [← hp] at hc
      have hchunks : (assemblePlan g (planChunks cfg g)).chunks =
          (planChunks cfg g).map (toPlanChunk g) := rfl
      rw [hchunks] at hc
      obtain ⟨c0, _, hce⟩ := List.mem_map.mp hc
      rw [← hce]
      rfl

/-- Witness for C2: permutation invariance of the fingerprint at a concrete
pair, and fingerprint identifiers in the concrete plan `planW`. -/
theorem chunk_ids_deterministic_content_fingerprint_witness :
    chunkId ["b", "a"] = chunkId ["a", "b"] ∧
    ∀ c ∈ planW.chunks, c.id = chunkId c.members :=
  ⟨chunk_ids_deterministic_content_fingerprint.1 ["b", "a"] ["a", "b"]
      (by decide),
    chunk_ids_deterministic_content_fingerprint.2.2 cfgW gW planW (by rfl)⟩

/-- C4: in the size-filtering pass a candidate chunk strictly below `minSize`
is merged back into its consumer instead of being emitted standalone (its key
disappears, its members land in the consumer), unless its size reaches
`enforceSizeThreshold`, in which case it is kept — the split is forced; a
candidate at or above `minSize` is likewise kept. -/
theorem sizeFilter_below_minSize_merged_back :
    ∀ (t : Thresholds) (g : ModuleGraph) (cs : List CChunk) (k : ChunkKey)
      (c : CChunk),
      cs.find? (fun c2 => c2.key == k) = some c →
      (t.minSize ≤ c.size → sizeFilterStep t g cs k = cs) ∧
      (c.size < t.minSize → t.enforceSizeThreshold ≤ c.size →
        sizeFilterStep t g cs k = cs) ∧
      (c.size < t.minSize → c.size < t.enforceSizeThreshold →
        ∀ tgt, consumerOf g (cs.erase c) c = some tgt →
          (keysOf cs).Nodup →
          (¬ ∃ d ∈ sizeFilterStep t g cs k, d.key = c.key) ∧
          ∃ d ∈ sizeFilterStep t g cs k, d.key = tgt.key ∧
            c.members.Sublist d.members ∧ d.size = tgt.size + c.size) := by
  intro t g cs k c hfind
  refine ⟨?_, ?_, ?_⟩
  · intro hmin
    unfold sizeFilterStep
    simp only [hfind]
    rw [if_pos hmin]
  · intro hsmall hbig
    unfold sizeFilterStep
    simp only [hfind]
    rw [if_neg (not_le.mpr hsmall), if_pos hbig]
  · intro hsmall hbig tgt htgt hnd
    have hstep : sizeFilterStep t g cs k = removeAndMerge cs c tgt.key := by
      unfold sizeFilterStep
      simp only [hfind]
      rw [if_neg (not_le.mpr hsmall), if_neg (not_le.mpr hbig), htgt]
    constructor
    · rintro ⟨d, hd, hdk⟩
      rw [hstep] at hd
      have hkmem : d.key ∈ keysOf (removeAndMerge cs c tgt.key) :=
        List.mem_map_of_mem CChunk.key hd
      rw [keysOf_removeAndMerge] at hkmem
      rw [hdk] at hkmem
      obtain ⟨c2, hc2, hc2k⟩ := List.mem_map.mp hkmem
      have hc2cs : c2 ∈ cs := List.Sublist.mem hc2 (List.erase_sublist c cs)
      have hcc : c ∈ cs := List.mem_of_find?_eq_some hfind
      have heq2 : c2 = c := List.inj_on_of_nodup_map hnd hc2cs hcc hc2k
      have hndl : cs.Nodup := List.Nodup.of_map _ hnd
      rw [heq2] at hc2
      exact ((List.Nodup.mem_erase_iff hndl).mp hc2).1 rfl
    · have htgtE : tgt ∈ cs.erase c := consumerOf_mem htgt
      rw [hstep]
      unfold removeAndMerge mergeInto
      refine ⟨{ tgt with members := tgt.members ++ c.members, size := tgt.size + c.size },
        ?_, rfl, List.sublist_append_right _ _, rfl⟩
      have h3 : (if (tgt.key == tgt.key) = true then
          { tgt with members := tgt.members ++ c.members, size := tgt.size + c.size }
        else tgt) ∈ List.map (fun tc =>
          if tc.key == tgt.key then
            { tc with members := tc.members ++ c.members, size := tc.size + c.size }
          else tc) (cs.erase c) := List.mem_map_of_mem _ htgtE
      rw [if_pos (beq_self_eq_true _)] at h3
      exact h3

/-- Witness for C4: a 500-byte candidate under `minSize = 20000` is merged
back into its sole consumer rather than emitted standalone. -/
theorem sizeFilter_below_minSize_merged_back_witness :
    (¬ ∃ d ∈ sizeFilterStep t4 g4 [tgt4, cand4] cand4.key,
      d.key = cand4.key) ∧
    ∃ d ∈ sizeFilterStep t4 g4 [tgt4, cand4] cand4.key, d.key = tgt4.key ∧
      cand4.members.Sublist d.members ∧ d.size = tgt4.size + cand4.size :=
  (sizeFilter_below_minSize_merged_back t4 g4 [tgt4, cand4] cand4.key cand4
    (by rfl)).2.2 (by decide) (by decide) tgt4 (by rfl) (by decide)

/-- C5: the capping pass merges chunks until the request limit is met or no
legal merge remains; the victim of each merge is a lowest-priority chunk with
smaller size breaking ties, never a chunk backed by `enforceSizeThreshold`
(such a chunk survives with its enforcement intact); with limit 2 and three
eligible chunks, the lowest-priority two are merged, leaving exactly 2. -/
theorem capping_merges_lowest_priority_until_limit :
    (∀ (t : Thresholds) (limit : Nat) (cs : List CChunk),
      (capRequests t limit cs).length ≤ limit ∨
        capStep t (capRequests t limit cs) = none) ∧
    (∀ (t : Thresholds) (cs : List CChunk) (v : CChunk),
      pickVictim t cs = some v →
      v.size < t.enforceSizeThreshold ∧
        ∀ c ∈ cs, c.size < t.enforceSizeThreshold → leVict v c) ∧
    (∀ (t : Thresholds) (limit : Nat) (cs : List CChunk) (c : CChunk),
      c ∈ cs → t.enforceSizeThreshold ≤ c.size →
      ∃ c2 ∈ capRequests t limit cs, c2.key = c.key ∧
        t.enforceSizeThreshold ≤ c2.size ∧ c.members.Sublist c2.members) ∧
    capRequests tCap 2 [chunkA5, chunkB5, chunkC5x] =
      [chunkA5,
        { key := ChunkKey.group "c5" [], members := ["c5", "b5"], size := 700, priority := 2 }] := by
  refine ⟨?_, ?_, ?_, by decide⟩
  · intro t limit cs
    exact capLoop_le_or_stuck t limit cs.length cs le_rfl
  · intro t cs v h
    exact ⟨(pickVictim_mem h).2, pickVictim_minimal h⟩
  · intro t limit cs c hc hbig
    exact capLoop_keeps_enforced t limit cs.length cs c hc hbig

/-- Witness for C5: the three-chunk scenario (limit met), the victim choice
on it, and survival of an enforced chunk. -/
theorem capping_merges_lowest_priority_until_limit_witness :
    ((capRequests tCap 2 [chunkA5, chunkB5, chunkC5x]).length ≤ 2 ∨
      capStep tCap (capRequests tCap 2 [chunkA5, chunkB5, chunkC5x]) = none) ∧
    (chunkB5.size < tCap.enforceSizeThreshold ∧
      ∀ c ∈ [chunkA5, chunkB5, chunkC5x],
        c.size < tCap.enforceSizeThreshold → leVict chunkB5 c) ∧
    ∃ c2 ∈ capRequests tCap 2 [bigChunk], c2.key = bigChunk.key ∧
      tCap.enforceSizeThreshold ≤ c2.size ∧
      bigChunk.members.Sublist c2.members :=
  ⟨capping_merges_lowest_priority_until_limit.1 tCap 2
      [chunkA5, chunkB5, chunkC5x],
    capping_merges_lowest_priority_until_limit.2.1 tCap
      [chunkA5, chunkB5, chunkC5x] chunkB5 (by rfl),
    capping_merges_lowest_priority_until_limit.2.2.1 tCap 2 [bigChunk] bigChunk
      (by decide) (by decide)⟩

/-- C6: a module synchronously reachable from an initial entry ends up in an
initial chunk of the plan — synchronous reachability dominates — and in no
other chunk (in particular not in the async chunk of a lazy importer);
concretely, with entry `A` sync-importing `X`, async-importing `Y`, and `Y`
sync-importing `X`, the plan puts `X` in `A`'s initial chunk and not in `Y`'s
async chunk. -/
theorem sync_reachability_dominates_initial_placement :
    (∀ (cfg : Config) (g : ModuleGraph) (m : Module),
      (g.modules.map Module.id).Nodup → m ∈ g.modules →
      isInitial g m.id = true →
      (∀ c ∈ planChunks cfg g, m.id ∈ c.members →
        chunkKind g c.members = ChunkKind.initial) ∧
      nChunksWith m.id (planChunks cfg g) = 1) ∧
    planChunks cfg6 g6 =
      [{ key := ChunkKey.inlined "A", members := ["A", "X"], size := 150, priority := 0 },
       { key := ChunkKey.inlined "Y", members := ["Y"], size := 70, priority := 0 }] ∧
    chunkKind g6 ["A", "X"] = ChunkKind.initial ∧
    chunkKind g6 ["Y"] = ChunkKind.async := by
  refine ⟨?_, by decide, by decide, by decide⟩
  intro cfg g m hnd hm hini
  refine ⟨?_, nChunksWith_planChunks hnd hm⟩
  intro c _ hmem
  have h : (c.members.any (isInitial g)) = true :=
    List.any_eq_true.mpr ⟨m.id, hmem, hini⟩
  unfold chunkKind
  rw [if_pos h]

/-- Witness for C6: module `X` of the dual-reachability scenario. -/
theorem sync_reachability_dominates_initial_placement_witness :
    (∀ c ∈ planChunks cfg6 g6, (Module.mk "X" 50).id ∈ c.members →
      chunkKind g6 c.members = ChunkKind.initial) ∧
    nChunksWith (Module.mk "X" 50).id (planChunks cfg6 g6) = 1 :=
  sync_reachability_dominates_initial_placement.1 cfg6 g6 (Module.mk "X" 50)
    (by decide) (by decide) (by decide)

/-- C7: whenever the capped plan still violates a request limit — the
constraints are mutually unsatisfiable — planning fails with an
`UnsatisfiableConstraintError` naming the conflicting threshold pair, and
never returns a (partial) PartitionPlan; errors arise only in that case; the
concrete enforced-chunk fixture yields exactly that error naming the
triggering chunk. -/
theorem unsatisfiable_constraints_fail_with_error :
    (∀ (cfg : Config) (g : ModuleGraph),
      (cfg.thresholds.maxInitialRequests < (initialPlanChunks cfg g).length ∨
        cfg.thresholds.maxAsyncRequests < (asyncPlanChunks cfg g).length) →
      (∃ e : UnsatisfiableConstraintError,
        planResult cfg g = Except.error e ∧
        e.thresholdA = "enforceSizeThreshold" ∧
        (e.thresholdB = "maxInitialRequests" ∨
          e.thresholdB = "maxAsyncRequests")) ∧
      ∀ p, planResult cfg g ≠ Except.ok p) ∧
    (∀ (cfg : Config) (g : ModuleGraph) (e : UnsatisfiableConstraintError),
      planResult cfg g = Except.error e →
      cfg.thresholds.maxInitialRequests < (initialPlanChunks cfg g).length ∨
        cfg.thresholds.maxAsyncRequests < (asyncPlanChunks cfg g).length) ∧
    planResult cfgU gU = Except.error
      { thresholdA := "enforceSizeThreshold", thresholdB := "maxInitialRequests", chunk := "a" } := by
  refine ⟨?_, ?_, by rfl⟩
  · intro cfg g hover
    unfold planResult
    by_cases h1 : cfg.thresholds.maxInitialRequests < (initialPlanChunks cfg g).length
    · rw [if_pos h1]
      exact ⟨⟨_, rfl, rfl, Or.inl rfl⟩, fun p h => Except.noConfusion h⟩
    · rw [if_neg h1]
      have h2 : cfg.thresholds.maxAsyncRequests < (asyncPlanChunks cfg g).length := by
        rcases hover with h | h
        · exact absurd h h1
        · exact h
      rw [if_pos h2]
      exact ⟨⟨_, rfl, rfl, Or.inr rfl⟩, fun p h => Except.noConfusion h⟩
  · intro cfg g e herr
    by_contra hnot
    push_neg at hnot
    unfold planResult at herr
    rw [if_neg (not_lt.mpr hnot.1), if_neg (not_lt.mpr hnot.2)] at herr
    exact Except.noConfusion herr

/-- Witness for C7: the enforced-chunk fixture under `maxInitialRequests = 0`
fails with the named error and admits no plan. -/
theorem unsatisfiable_constraints_fail_with_error_witness :
    (∃ e : UnsatisfiableConstraintError,
      planResult cfgU gU = Except.error e ∧
      e.thresholdA = "enforceSizeThreshold" ∧
      (e.thresholdB = "maxInitialRequests" ∨
        e.thresholdB = "maxAsyncRequests")) ∧
    ∀ p, planResult cfgU gU ≠ Except.ok p :=
  unsatisfiable_constraints_fail_with_error.1 cfgU gU (Or.inl (by decide))

/-- C9: a module matched by no cache group goes to the implicit default group
`common` precisely when it is reachable from at least `minChunks` distinct
entry/async-split points, and otherwise stays inlined in its sole consuming
chunk; with `minChunks = 2` and two unrelated entries importing `Z`, the plan
hoists `Z` into the shared `common` chunk instead of duplicating it into the
entries' chunks. -/
theorem unmatched_module_common_group_minChunks :
    (∀ (cfg : Config) (g : ModuleGraph) (m : Module),
      matchingGroups cfg.groups m = [] →
      ((∃ combo, assignKey cfg g m = ChunkKey.common combo) ↔
        cfg.thresholds.minChunks ≤ (reachingPoints g m).length) ∧
      ((reachingPoints g m).length < cfg.thresholds.minChunks →
        assignKey cfg g m =
          ChunkKey.inlined ((reachingPoints g m).headD m.id))) ∧
    planChunks cfg9 g9 =
      [{ key := ChunkKey.inlined "A", members := ["A"], size := 100, priority := 0 },
       { key := ChunkKey.inlined "B", members := ["B"], size := 100, priority := 0 },
       { key := ChunkKey.common ["A", "B"], members := ["Z"], size := 50, priority := -20 }] := by
  refine ⟨?_, by decide⟩
  intro cfg g m hmg
  have hsel : selectGroup cfg.groups m = none := by
    unfold selectGroup
    rw [hmg]
  unfold assignKey
  simp only [hsel]
  by_cases hmin : cfg.thresholds.minChunks ≤ (reachingPoints g m).length
  · rw [if_pos hmin]
    refine ⟨⟨fun _ => hmin, fun _ => ⟨_, rfl⟩⟩, ?_⟩
    intro hlt
    exact absurd hmin (not_le.mpr hlt)
  · rw [if_neg hmin]
    refine ⟨⟨?_, fun h => absurd h hmin⟩, fun _ => rfl⟩
    rintro ⟨combo, h⟩
    exact ChunkKey.noConfusion h

/-- Witness for C9: module `Z` of the two-entry scenario. -/
theorem unmatched_module_common_group_minChunks_witness :
    ((∃ combo, assignKey cfg9 g9 (Module.mk "Z" 50) = ChunkKey.common combo) ↔
      cfg9.thresholds.minChunks ≤
        (reachingPoints g9 (Module.mk "Z" 50)).length) ∧
    ((reachingPoints g9 (Module.mk "Z" 50)).length <
        cfg9.thresholds.minChunks →
      assignKey cfg9 g9 (Module.mk "Z" 50) =
        ChunkKey.inlined
          ((reachingPoints g9 (Module.mk "Z" 50)).headD
            (Module.mk "Z" 50).id)) :=
  unmatched_module_common_group_minChunks.1 cfg9 g9 (Module.mk "Z" 50) (by rfl)

end Bundler
